import Mathlib

/-!
Verification of the repository `rag_challenge` (single source file `src/app.py`).

The app loads a pickled QA chain (memoized by a resource cache), reads a
query from a text input, and when the query is nonempty it invokes the chain
with `{"query": query}`, extracts `response["result"]`, formats it with a
chain of string replacements followed by a strip, and renders the result.

Strings are modelled as `List Char`.  The Python `str.replace` (replace all
non-overlapping occurrences, scanning left to right) is modelled by
`replaceL`, defined through a fuel-indexed structural recursion so that it
evaluates by kernel reduction.  `str.strip` is modelled by `pyStrip`.
-/

/-- Boolean test that `p` is an initial segment of `l`
(models the position test of Python `str.replace` and `str.find`). -/
def leadsWith : List Char → List Char → Bool
  | [], _ => true
  | _ :: _, [] => false
  | a :: as, b :: bs => a == b && leadsWith as bs

/-- Boolean test that `p` occurs as a contiguous substring of `l`
(models the Python `in` test on strings). -/
def containsSub (p : List Char) : List Char → Bool
  | [] => p.isEmpty
  | c :: cs => leadsWith p (c :: cs) || containsSub p cs

/-- Number of positions of `l` at which the pattern `p` starts
(for the patterns used here, which cannot overlap themselves, this is
the number of occurrences of `p` in `l`). -/
def countSub (p : List Char) : List Char → Nat
  | [] => 0
  | c :: cs => (if leadsWith p (c :: cs) then 1 else 0) + countSub p cs

/-- Fuel-indexed worker for `replaceL`; structural in the fuel so that the
kernel can evaluate it on concrete inputs. -/
def replaceFuel (p r : List Char) : Nat → List Char → List Char
  | _, [] => []
  | 0, l => l
  | n + 1, c :: cs =>
    if !p.isEmpty && leadsWith p (c :: cs) then
      r ++ replaceFuel p r n (cs.drop (p.length - 1))
    else
      c :: replaceFuel p r n cs

/-- Model of Python `str.replace p r`: replace every non-overlapping
occurrence of `p` by `r`, scanning left to right.  (For the empty pattern,
which the app never uses, this is the identity.) -/
def replaceL (p r l : List Char) : List Char :=
  replaceFuel p r l.length l

/-- The whitespace characters removed by `str.strip` (restricted to the
ASCII whitespace characters; the app only ever introduces space, newline
and tab). -/
def pySpace (c : Char) : Bool :=
  c == ' ' || c == '\t' || c == '\n' || c == '\r' || c == '\x0b' || c == '\x0c'

/-- Model of Python `str.lstrip()`. -/
def stripLeft (l : List Char) : List Char := l.dropWhile pySpace

/-- Model of Python `str.rstrip()`. -/
def stripRight (l : List Char) : List Char := (l.reverse.dropWhile pySpace).reverse

/-- Model of Python `str.strip()`. -/
def pyStrip (l : List Char) : List Char := stripRight (stripLeft l)

/-- The literal token `/quotesingle.ts1` replaced by the first substitution
of `clean_answer` (src/app.py line 27). -/
def quoteTok : List Char :=
  ['/', 'q', 'u', 'o', 't', 'e', 's', 'i', 'n', 'g', 'l', 'e', '.', 't', 's', '1']

/-- The replacement for `quoteTok`: a single apostrophe character. -/
def quoteRep : List Char := ['\'']

/-- The colon-space pattern of the second substitution (src/app.py line 28). -/
def colonPat : List Char := [':', ' ']

/-- Its replacement: colon, newline, tab. -/
def colonRep : List Char := [':', '\n', '\t']

/-- The close-paren-space pattern of the third substitution (src/app.py line 29). -/
def parenPat : List Char := [')', ' ']

/-- Its replacement: close-paren, newline, tab. -/
def parenRep : List Char := [')', '\n', '\t']

/-- The answer formatter of src/app.py lines 26-31:
`answer.replace("/quotesingle.ts1", "'").replace(": ", ":\n\t").replace(") ", ")\n\t").strip()`. -/
def clean_answer (answer : List Char) : List Char :=
  pyStrip (replaceL parenPat parenRep (replaceL colonPat colonRep (replaceL quoteTok quoteRep answer)))

/-- Step 1 of the formatter as the spec words it: replace every occurrence
of the literal token by an apostrophe. -/
def specStep1 (s : List Char) : List Char := replaceL quoteTok quoteRep s

/-- Step 2 of the formatter as the spec words it: replace every occurrence
of colon-space by colon-newline-tab. -/
def specStep2 (s : List Char) : List Char := replaceL colonPat colonRep s

/-- Step 3 of the formatter as the spec words it: replace every occurrence
of close-paren-space by close-paren-newline-tab. -/
def specStep3 (s : List Char) : List Char := replaceL parenPat parenRep s

/-- The formatter as the spec words it: the three substitutions in order,
then strip leading and trailing whitespace. -/
def formatterSpec (s : List Char) : List Char :=
  pyStrip (specStep3 (specStep2 (specStep1 s)))

/-! ### Basic equations for the fuel-indexed replace -/

theorem replaceFuel_nil (p r : List Char) (n : Nat) : replaceFuel p r n [] = [] := by
  cases n <;> rfl

theorem replaceFuel_congr (p r : List Char) :
    ∀ n m l, l.length ≤ n → l.length ≤ m → replaceFuel p r n l = replaceFuel p r m l := by
  intro n
  induction n with
  | zero =>
    intro m l hn _
    have : l = [] := List.length_eq_zero.mp (Nat.le_zero.mp hn)
    subst this
    rw [replaceFuel_nil, replaceFuel_nil]
  | succ n ih =>
    intro m l hn hm
    cases l with
    | nil => rw [replaceFuel_nil, replaceFuel_nil]
    | cons c cs =>
      cases m with
      | zero => simp at hm
      | succ m =>
        show (if !p.isEmpty && leadsWith p (c :: cs) then
                r ++ replaceFuel p r n (cs.drop (p.length - 1))
              else c :: replaceFuel p r n cs) =
             (if !p.isEmpty && leadsWith p (c :: cs) then
                r ++ replaceFuel p r m (cs.drop (p.length - 1))
              else c :: replaceFuel p r m cs)
        have hn' : cs.length ≤ n := by simpa using hn
        have hm' : cs.length ≤ m := by simpa using hm
        have hd : (cs.drop (p.length - 1)).length ≤ cs.length := by
          rw [List.length_drop]; omega
        by_cases hc : (!p.isEmpty && leadsWith p (c :: cs)) = true
        · rw [if_pos hc, if_pos hc,
              ih m (cs.drop (p.length - 1)) (Nat.le_trans hd hn') (Nat.le_trans hd hm')]
        · rw [if_neg hc, if_neg hc, ih m cs hn' hm']

theorem replaceL_nil (p r : List Char) : replaceL p r [] = [] := rfl

theorem replaceL_cons (p r : List Char) (c : Char) (cs : List Char) :
    replaceL p r (c :: cs) =
      if !p.isEmpty && leadsWith p (c :: cs) then
        r ++ replaceL p r (cs.drop (p.length - 1))
      else
        c :: replaceL p r cs := by
  show (if !p.isEmpty && leadsWith p (c :: cs) then
          r ++ replaceFuel p r cs.length (cs.drop (p.length - 1))
        else c :: replaceFuel p r cs.length cs) = _
  have hd : (cs.drop (p.length - 1)).length ≤ cs.length := by
    rw [List.length_drop]; omega
  by_cases hc : (!p.isEmpty && leadsWith p (c :: cs)) = true
  · rw [if_pos hc, if_pos hc]
    rw [replaceFuel_congr p r cs.length (cs.drop (p.length - 1)).length _ hd (Nat.le_refl _)]
    rfl
  · rw [if_neg hc, if_neg hc]
    rfl

/-! ### Basic lemmas about `leadsWith` and `containsSub` -/

theorem leadsWith_nil (l : List Char) : leadsWith [] l = true := by
  cases l <;> rfl

theorem leadsWith_cons (a b : Char) (as bs : List Char) :
    leadsWith (a :: as) (b :: bs) = (a == b && leadsWith as bs) := rfl

theorem leadsWith_cons_nil (a : Char) (as : List Char) : leadsWith (a :: as) [] = false := rfl

theorem leadsWith_cons_of_ne {a b : Char} (h : a ≠ b) (as bs : List Char) :
    leadsWith (a :: as) (b :: bs) = false := by
  rw [leadsWith_cons, beq_eq_false_iff_ne.mpr h, Bool.false_and]

theorem eq_nil_of_leadsWith_nil {s : List Char} (h : leadsWith s [] = true) : s = [] := by
  cases s with
  | nil => rfl
  | cons a as => exact absurd h (by rw [leadsWith_cons_nil]; simp)

theorem leadsWith_append_self (s t : List Char) : leadsWith s (s ++ t) = true := by
  induction s with
  | nil => exact leadsWith_nil t
  | cons a as ih => rw [List.cons_append, leadsWith_cons, ih]; simp

theorem eq_append_drop_of_leadsWith :
    ∀ (s l : List Char), leadsWith s l = true → l = s ++ l.drop s.length := by
  intro s
  induction s with
  | nil => intro l _; simp
  | cons a as ih =>
    intro l h
    cases l with
    | nil => exact absurd h (by rw [leadsWith_cons_nil]; simp)
    | cons b bs =>
      rw [leadsWith_cons, Bool.and_eq_true, beq_iff_eq] at h
      obtain ⟨rfl, h2⟩ := h
      have := ih bs h2
      rw [List.cons_append]
      simpa [List.drop_succ_cons] using congrArg (a :: ·) this

theorem leadsWith_append_left {q s : List Char} (h : leadsWith q s = true) (t : List Char) :
    leadsWith q (s ++ t) = true := by
  induction q generalizing s with
  | nil => exact leadsWith_nil _
  | cons a as ih =>
    cases s with
    | nil => exact absurd h (by rw [leadsWith_cons_nil]; simp)
    | cons b bs =>
      rw [leadsWith_cons, Bool.and_eq_true] at h
      rw [List.cons_append, leadsWith_cons, h.1, ih h.2]
      rfl

theorem containsSub_nil_pat (l : List Char) : containsSub [] l = true := by
  cases l with
  | nil => rfl
  | cons c cs => show (leadsWith [] (c :: cs) || _) = true; rw [leadsWith_nil]; simp

theorem containsSub_cons (p : List Char) (c : Char) (cs : List Char) :
    containsSub p (c :: cs) = (leadsWith p (c :: cs) || containsSub p cs) := rfl

theorem containsSub_of_tail {p : List Char} {c : Char} {cs : List Char}
    (h : containsSub p cs = true) : containsSub p (c :: cs) = true := by
  rw [containsSub_cons, h, Bool.or_true]

theorem containsSub_of_leadsWith {p l : List Char} (h : leadsWith p l = true) :
    containsSub p l = true := by
  cases l with
  | nil => rw [eq_nil_of_leadsWith_nil h]; rfl
  | cons c cs => rw [containsSub_cons, h, Bool.true_or]

theorem containsSub_of_drop {p l : List Char} {n : Nat}
    (h : containsSub p (l.drop n) = true) : containsSub p l = true := by
  induction l generalizing n with
  | nil => simpa using h
  | cons c cs ih =>
    cases n with
    | zero => simpa using h
    | succ n =>
      rw [List.drop_succ_cons] at h
      exact containsSub_of_tail (ih h)

theorem containsSub_append_left {q s : List Char} (h : containsSub q s = true) (t : List Char) :
    containsSub q (s ++ t) = true := by
  induction s with
  | nil =>
    cases q with
    | nil => exact containsSub_nil_pat t
    | cons a as => simp [containsSub] at h
  | cons c cs ih =>
    rw [containsSub_cons, Bool.or_eq_true] at h
    rw [List.cons_append, containsSub_cons]
    rcases h with h | h
    · rw [show c :: (cs ++ t) = (c :: cs) ++ t from rfl, leadsWith_append_left h, Bool.true_or]
    · rw [ih h, Bool.or_true]

theorem containsSub_append_right {q : List Char} (s : List Char) {t : List Char}
    (h : containsSub q t = true) : containsSub q (s ++ t) = true := by
  induction s with
  | nil => simpa using h
  | cons c cs ih => exact containsSub_of_tail ih

/-! ### Structural lemmas about `replaceL` -/

theorem replaceL_empty_pat (r : List Char) : ∀ l, replaceL [] r l = l := by
  intro l
  induction l with
  | nil => rfl
  | cons c cs ih =>
    rw [replaceL_cons, ih]
    simp

theorem replaceL_of_not_contains {p : List Char} (r : List Char) :
    ∀ {l : List Char}, containsSub p l = false → replaceL p r l = l := by
  intro l
  induction l with
  | nil => intro _; rfl
  | cons c cs ih =>
    intro h
    rw [containsSub_cons, Bool.or_eq_false_iff] at h
    rw [replaceL_cons, h.1, Bool.and_false, if_neg (by simp), ih h.2]

theorem head?_replaceL (p : List Char) (a : Char) (rs : List Char) (l : List Char) :
    (replaceL p (a :: rs) l).head? = l.head? ∨ (replaceL p (a :: rs) l).head? = some a := by
  cases l with
  | nil => left; rfl
  | cons c cs =>
    rw [replaceL_cons]
    by_cases hc : (!p.isEmpty && leadsWith p (c :: cs)) = true
    · rw [if_pos hc]; right; rfl
    · rw [if_neg hc]; left; rfl

theorem leadsWith_of_leadsWith_replaceL {p : List Char} {a : Char} {rs : List Char} :
    ∀ {l s : List Char}, a ∉ s → leadsWith s (replaceL p (a :: rs) l) = true →
      leadsWith s l = true := by
  intro l
  induction l with
  | nil =>
    intro s _ h
    rw [replaceL_nil] at h
    rw [eq_nil_of_leadsWith_nil h]
    exact leadsWith_nil _
  | cons c cs ih =>
    intro s ha h
    rw [replaceL_cons] at h
    by_cases hc : (!p.isEmpty && leadsWith p (c :: cs)) = true
    · rw [if_pos hc] at h
      cases s with
      | nil => exact leadsWith_nil _
      | cons b bs =>
        rw [show ((a :: rs) ++ replaceL p (a :: rs) (cs.drop (p.length - 1))) =
              a :: (rs ++ replaceL p (a :: rs) (cs.drop (p.length - 1))) from rfl,
            leadsWith_cons, Bool.and_eq_true, beq_iff_eq] at h
        exact absurd (h.1 ▸ List.mem_cons_self b bs) ha
    · rw [if_neg hc] at h
      cases s with
      | nil => exact leadsWith_nil _
      | cons b bs =>
        rw [leadsWith_cons, Bool.and_eq_true] at h
        have hbs : a ∉ bs := fun hm => ha (List.mem_cons_of_mem b hm)
        rw [leadsWith_cons, h.1, ih hbs h.2]
        rfl

theorem replaceL_append_of_head_notMem {p : List Char} (r : List Char) :
    ∀ {s : List Char} (t : List Char), (∀ x ∈ s, p.head? ≠ some x) →
      replaceL p r (s ++ t) = s ++ replaceL p r t := by
  intro s
  induction s with
  | nil => intro t _; rfl
  | cons b bs ih =>
    intro t h
    rw [List.cons_append, replaceL_cons]
    cases p with
    | nil =>
      rw [ih t (by intro x _; simp)]
      simp
    | cons ph pt =>
      have hne : ph ≠ b := by
        intro he
        exact (h b (List.mem_cons_self b bs)) (by rw [he]; rfl)
      rw [leadsWith_cons_of_ne hne, Bool.and_false, if_neg (by simp)]
      rw [ih t (fun x hx => h x (List.mem_cons_of_mem b hx))]
      rfl

/-! ### The substitutions eliminate their own pattern -/

theorem leadsWith_single (b : Char) (l : List Char) :
    leadsWith [b] l = true ↔ l.head? = some b := by
  cases l with
  | nil => rw [leadsWith_cons_nil]; simp
  | cons x xs =>
    rw [leadsWith_cons, leadsWith_nil, Bool.and_true, beq_iff_eq]
    simp [eq_comm]

theorem pat_elim_aux (a : Char) (hn : a ≠ '\n') (ht : a ≠ '\t') (hs : a ≠ ' ') :
    ∀ n l, l.length ≤ n →
      containsSub [a, ' '] (replaceL [a, ' '] [a, '\n', '\t'] l) = false := by
  intro n
  induction n with
  | zero =>
    intro l h
    have : l = [] := List.length_eq_zero.mp (Nat.le_zero.mp h)
    subst this
    rfl
  | succ n ih =>
    intro l hl
    cases l with
    | nil => rfl
    | cons c cs =>
      have hcs : cs.length ≤ n := by simpa using hl
      rw [replaceL_cons]
      by_cases hc : ((! List.isEmpty [a, ' ']) && leadsWith [a, ' '] (c :: cs)) = true
      · rw [if_pos hc]
        have hX := ih (cs.drop ([a, ' '].length - 1))
          (Nat.le_trans (by rw [List.length_drop]; omega) hcs)
        have e1 : ((' ' : Char) == '\n') = false := by decide
        simp only [List.cons_append, List.nil_append, containsSub_cons,
          leadsWith_cons, e1, leadsWith_cons_of_ne hn, leadsWith_cons_of_ne ht,
          Bool.and_false, Bool.false_and, hX, Bool.or_false, Bool.or_self]
      · rw [if_neg hc]
        have h1 : leadsWith [a, ' '] (c :: cs) = false := by
          revert hc; simp
        rw [containsSub_cons, ih cs hcs, Bool.or_false]
        by_cases hca : a = c
        · subst hca
          have h2 : leadsWith [' '] cs = false := by
            rw [leadsWith_cons] at h1
            simpa using h1
          rw [leadsWith_cons]
          simp only [beq_self_eq_true, Bool.true_and]
          rcases Bool.eq_false_or_eq_true (leadsWith [' '] (replaceL [a, ' '] [a, '\n', '\t'] cs)) with hE | hE
          · exfalso
            have hRh := (leadsWith_single ' ' _).mp hE
            rcases head?_replaceL [a, ' '] a ['\n', '\t'] cs with hh | hh
            · have h3 : leadsWith [' '] cs = true :=
                (leadsWith_single ' ' cs).mpr (by rw [← hh, hRh])
              exact Bool.false_ne_true (h2.symm.trans h3)
            · rw [hh] at hRh
              exact hs (Option.some.inj hRh)
          · exact hE
        · exact leadsWith_cons_of_ne hca _ _

theorem colon_elim (l : List Char) :
    containsSub colonPat (replaceL colonPat colonRep l) = false :=
  pat_elim_aux ':' (by decide) (by decide) (by decide) l.length l (Nat.le_refl _)

theorem paren_elim (l : List Char) :
    containsSub parenPat (replaceL parenPat parenRep l) = false :=
  pat_elim_aux ')' (by decide) (by decide) (by decide) l.length l (Nat.le_refl _)

theorem tok_elim_aux :
    ∀ n l, l.length ≤ n →
      containsSub quoteTok (replaceL quoteTok quoteRep l) = false := by
  intro n
  induction n with
  | zero =>
    intro l h
    have : l = [] := List.length_eq_zero.mp (Nat.le_zero.mp h)
    subst this
    rfl
  | succ n ih =>
    intro l hl
    cases l with
    | nil => rfl
    | cons c cs =>
      have hcs : cs.length ≤ n := by simpa using hl
      rw [replaceL_cons]
      by_cases hc : (!quoteTok.isEmpty && leadsWith quoteTok (c :: cs)) = true
      · rw [if_pos hc]
        have hX := ih (cs.drop (quoteTok.length - 1))
          (Nat.le_trans (by rw [List.length_drop]; omega) hcs)
        have hlw : leadsWith quoteTok
            ('\'' :: replaceL quoteTok quoteRep (cs.drop (quoteTok.length - 1))) = false :=
          leadsWith_cons_of_ne (by decide) _ _
        rw [show (quoteRep ++ replaceL quoteTok quoteRep (cs.drop (quoteTok.length - 1))) =
              '\'' :: replaceL quoteTok quoteRep (cs.drop (quoteTok.length - 1)) from rfl,
            containsSub_cons, hlw, hX]
        rfl
      · rw [if_neg hc]
        have h1 : leadsWith quoteTok (c :: cs) = false := by
          have he : quoteTok.isEmpty = false := rfl
          revert hc; simp [he]
        rw [containsSub_cons, ih cs hcs, Bool.or_false]
        rcases Bool.eq_false_or_eq_true (leadsWith quoteTok (c :: replaceL quoteTok quoteRep cs)) with hE | hE
        · exfalso
          rw [show quoteTok = '/' :: quoteTok.tail from rfl, leadsWith_cons,
              Bool.and_eq_true, beq_iff_eq] at hE
          obtain ⟨hc1, hE2⟩ := hE
          have h3 : leadsWith quoteTok.tail cs = true :=
            leadsWith_of_leadsWith_replaceL (a := '\'') (by decide) hE2
          have h4 : leadsWith quoteTok (c :: cs) = true := by
            rw [show quoteTok = '/' :: quoteTok.tail from rfl, leadsWith_cons,
                beq_iff_eq.mpr hc1, h3]
            rfl
          exact Bool.false_ne_true (h1.symm.trans h4)
        · exact hE

theorem tok_elim (l : List Char) :
    containsSub quoteTok (replaceL quoteTok quoteRep l) = false :=
  tok_elim_aux l.length l (Nat.le_refl _)

/-! ### A substitution with replacement a-newline-tab preserves absence of
unrelated patterns -/

theorem preserve_absence_aux (p : List Char) (a q0 : Char) (qt : List Char)
    (h0a : q0 ≠ a) (h0n : q0 ≠ '\n') (h0t : q0 ≠ '\t') (hqa : a ∉ qt) :
    ∀ n l, l.length ≤ n → containsSub (q0 :: qt) l = false →
      containsSub (q0 :: qt) (replaceL p [a, '\n', '\t'] l) = false := by
  intro n
  induction n with
  | zero =>
    intro l h _
    have : l = [] := List.length_eq_zero.mp (Nat.le_zero.mp h)
    subst this
    rfl
  | succ n ih =>
    intro l hl habs
    cases l with
    | nil => rfl
    | cons c cs =>
      have hcs : cs.length ≤ n := by simpa using hl
      rw [containsSub_cons, Bool.or_eq_false_iff] at habs
      obtain ⟨hlw, htl⟩ := habs
      rw [replaceL_cons]
      by_cases hc : ((!p.isEmpty) && leadsWith p (c :: cs)) = true
      · rw [if_pos hc]
        have hdrop : containsSub (q0 :: qt) (cs.drop (p.length - 1)) = false := by
          rcases Bool.eq_false_or_eq_true (containsSub (q0 :: qt) (cs.drop (p.length - 1))) with hE | hE
          · exact absurd (containsSub_of_tail (containsSub_of_drop hE))
              (by rw [containsSub_cons, hlw, Bool.false_or] at *; rw [htl]; simp)
          · exact hE
        have hX := ih (cs.drop (p.length - 1))
          (Nat.le_trans (by rw [List.length_drop]; omega) hcs) hdrop
        simp only [List.cons_append, List.nil_append, containsSub_cons,
          leadsWith_cons_of_ne h0a, leadsWith_cons_of_ne h0n, leadsWith_cons_of_ne h0t,
          hX, Bool.false_or, Bool.or_false, Bool.or_self]
      · rw [if_neg hc]
        rw [containsSub_cons, ih cs hcs htl, Bool.or_false]
        rcases Bool.eq_false_or_eq_true
            (leadsWith (q0 :: qt) (c :: replaceL p [a, '\n', '\t'] cs)) with hE | hE
        · exfalso
          rw [leadsWith_cons, Bool.and_eq_true, beq_iff_eq] at hE
          obtain ⟨hq0c, hE2⟩ := hE
          have h3 : leadsWith qt cs = true :=
            leadsWith_of_leadsWith_replaceL (a := a) hqa hE2
          have h4 : leadsWith (q0 :: qt) (c :: cs) = true := by
            rw [leadsWith_cons, beq_iff_eq.mpr hq0c, h3]
            rfl
          exact Bool.false_ne_true (hlw.symm.trans h4)
        · exact hE

/-! ### Lemmas about the strip -/

theorem containsSub_of_dropWhile {q : List Char} (f : Char → Bool) :
    ∀ {l : List Char}, containsSub q (l.dropWhile f) = true → containsSub q l = true := by
  intro l
  induction l with
  | nil => intro h; simpa using h
  | cons c cs ih =>
    intro h
    rw [List.dropWhile_cons] at h
    by_cases hf : f c = true
    · rw [if_pos hf] at h
      exact containsSub_of_tail (ih h)
    · rw [if_neg hf] at h
      exact h

theorem stripRight_append :
    ∀ l : List Char, ∃ u, l = stripRight l ++ u ∧ ∀ x ∈ u, pySpace x = true := by
  intro l
  refine ⟨(l.reverse.takeWhile pySpace).reverse, ?_, ?_⟩
  · conv_lhs => rw [← l.reverse_reverse, ← List.takeWhile_append_dropWhile (p := pySpace) (l := l.reverse)]
    rw [List.reverse_append]
    rfl
  · intro x hx
    rw [List.mem_reverse] at hx
    exact List.mem_takeWhile_imp hx

theorem containsSub_of_stripRight {q l : List Char}
    (h : containsSub q (stripRight l) = true) : containsSub q l = true := by
  obtain ⟨u, hu, -⟩ := stripRight_append l
  rw [hu]
  exact containsSub_append_left h u

theorem containsSub_of_pyStrip {q l : List Char}
    (h : containsSub q (pyStrip l) = true) : containsSub q l = true :=
  containsSub_of_dropWhile pySpace (containsSub_of_stripRight h)

theorem pyStrip_absence {q l : List Char} (h : containsSub q l = false) :
    containsSub q (pyStrip l) = false := by
  rcases Bool.eq_false_or_eq_true (containsSub q (pyStrip l)) with hE | hE
  · exact absurd (containsSub_of_pyStrip hE) (by rw [h]; simp)
  · exact hE

theorem dropWhile_idem (f : Char → Bool) :
    ∀ l : List Char, (l.dropWhile f).dropWhile f = l.dropWhile f := by
  intro l
  induction l with
  | nil => rfl
  | cons c cs ih =>
    rw [List.dropWhile_cons]
    by_cases hf : f c = true
    · rw [if_pos hf]; exact ih
    · rw [if_neg hf, List.dropWhile_cons, if_neg hf]

theorem head_false_of_dropWhile {f : Char → Bool} :
    ∀ {l : List Char} {c : Char} {t : List Char}, l.dropWhile f = c :: t → f c = false := by
  intro l
  induction l with
  | nil => intro c t h; simp at h
  | cons b bs ih =>
    intro c t h
    rw [List.dropWhile_cons] at h
    by_cases hf : f b = true
    · rw [if_pos hf] at h; exact ih h
    · rw [if_neg hf] at h
      obtain ⟨rfl, -⟩ := List.cons.inj h
      exact Bool.eq_false_iff.mpr hf

theorem stripRight_idem (l : List Char) : stripRight (stripRight l) = stripRight l := by
  show ((stripRight l).reverse.dropWhile pySpace).reverse = stripRight l
  rw [show (stripRight l).reverse = l.reverse.dropWhile pySpace from List.reverse_reverse _,
      dropWhile_idem]
  rfl

theorem stripLeft_pyStrip (l : List Char) : stripLeft (pyStrip l) = pyStrip l := by
  show (stripRight (stripLeft l)).dropWhile pySpace = stripRight (stripLeft l)
  rcases hsr : stripRight (stripLeft l) with _ | ⟨c, t⟩
  · rfl
  · obtain ⟨u, hu, -⟩ := stripRight_append (stripLeft l)
    rw [hsr] at hu
    have hhead : pySpace c = false := by
      have : (stripLeft l).dropWhile pySpace = stripLeft l := dropWhile_idem pySpace l
      have h2 : stripLeft l = c :: (t ++ u) := by rw [hu]; rfl
      exact head_false_of_dropWhile (l := l) (by rw [show l.dropWhile pySpace = stripLeft l from rfl, h2])
    rw [List.dropWhile_cons, if_neg (by rw [hhead]; simp)]

theorem pyStrip_idem (l : List Char) : pyStrip (pyStrip l) = pyStrip l := by
  show stripRight (stripLeft (pyStrip l)) = pyStrip l
  rw [stripLeft_pyStrip]
  show stripRight (stripRight (stripLeft l)) = pyStrip l
  rw [stripRight_idem]
  rfl

/-! ### Absence invariants of the formatter output -/

theorem tok_preserved_colon {l : List Char} (h : containsSub quoteTok l = false) :
    containsSub quoteTok (replaceL colonPat colonRep l) = false :=
  preserve_absence_aux colonPat ':' '/' quoteTok.tail
    (by decide) (by decide) (by decide) (by decide) l.length l (Nat.le_refl _) h

theorem tok_preserved_paren {l : List Char} (h : containsSub quoteTok l = false) :
    containsSub quoteTok (replaceL parenPat parenRep l) = false :=
  preserve_absence_aux parenPat ')' '/' quoteTok.tail
    (by decide) (by decide) (by decide) (by decide) l.length l (Nat.le_refl _) h

theorem colon_preserved_paren {l : List Char} (h : containsSub colonPat l = false) :
    containsSub colonPat (replaceL parenPat parenRep l) = false :=
  preserve_absence_aux parenPat ')' ':' [' ']
    (by decide) (by decide) (by decide) (by decide) l.length l (Nat.le_refl _) h

theorem clean_no_tok (s : List Char) : containsSub quoteTok (clean_answer s) = false :=
  pyStrip_absence (tok_preserved_paren (tok_preserved_colon (tok_elim s)))

theorem clean_no_colon (s : List Char) : containsSub colonPat (clean_answer s) = false :=
  pyStrip_absence (colon_preserved_paren (colon_elim (replaceL quoteTok quoteRep s)))

theorem clean_no_paren (s : List Char) : containsSub parenPat (clean_answer s) = false :=
  pyStrip_absence (paren_elim (replaceL colonPat colonRep (replaceL quoteTok quoteRep s)))

/-- The formatter is idempotent: its output contains none of the three
patterns, so a second application only strips an already stripped string. -/
theorem clean_answer_idem_aux (s : List Char) :
    clean_answer (clean_answer s) = clean_answer s := by
  have h1 := clean_no_tok s
  have h2 := clean_no_colon s
  have h3 := clean_no_paren s
  show pyStrip (replaceL parenPat parenRep (replaceL colonPat colonRep
    (replaceL quoteTok quoteRep (clean_answer s)))) = clean_answer s
  rw [replaceL_of_not_contains quoteRep h1, replaceL_of_not_contains colonRep h2,
      replaceL_of_not_contains parenRep h3]
  show pyStrip (pyStrip (replaceL parenPat parenRep (replaceL colonPat colonRep
    (replaceL quoteTok quoteRep s)))) = clean_answer s
  rw [pyStrip_idem]
  rfl

/-! ### Claims about the answer formatter -/

/-- C1: the answer formatter is exactly the composition, in this order, of
the token substitution, the colon-space substitution, the close-paren-space
substitution, and the final strip of leading and trailing whitespace. -/
theorem C1_formatter_is_spec_composition : ∀ s : List Char, clean_answer s = formatterSpec s :=
  fun _ => rfl

/-- C2 (counterexample to the claim as stated): there is no input on which
re-applying the formatter to its own output changes the string; the claimed
witness of non-idempotence does not exist. -/
theorem C2_counterexample_no_nonidempotence :
    ¬ ∃ s : List Char, clean_answer (clean_answer s) ≠ clean_answer s :=
  fun ⟨s, hs⟩ => hs (clean_answer_idem_aux s)

/-- C2 (amended): the formatter is idempotent; applying it to its own output
is always a no-op, because the output never contains the token, colon-space,
or close-paren-space, and is already stripped. -/
theorem C2_formatter_idempotent :
    ∀ s : List Char, clean_answer (clean_answer s) = clean_answer s :=
  clean_answer_idem_aux

/-- C3: on any string containing none of the three substitution patterns the
formatter only strips leading and trailing whitespace. -/
theorem C3_formatter_is_strip_without_patterns (s : List Char)
    (h1 : containsSub quoteTok s = false)
    (h2 : containsSub colonPat s = false)
    (h3 : containsSub parenPat s = false) :
    clean_answer s = pyStrip s := by
  show pyStrip (replaceL parenPat parenRep (replaceL colonPat colonRep
    (replaceL quoteTok quoteRep s))) = pyStrip s
  rw [replaceL_of_not_contains quoteRep h1, replaceL_of_not_contains colonRep h2,
      replaceL_of_not_contains parenRep h3]

/-- Witness for C3 at the concrete input space-h-i-space. -/
theorem C3_witness :
    containsSub quoteTok [' ', 'h', 'i', ' '] = false ∧
    containsSub colonPat [' ', 'h', 'i', ' '] = false ∧
    containsSub parenPat [' ', 'h', 'i', ' '] = false ∧
    clean_answer [' ', 'h', 'i', ' '] = pyStrip [' ', 'h', 'i', ' '] :=
  ⟨by decide, by decide, by decide,
    C3_formatter_is_strip_without_patterns [' ', 'h', 'i', ' ']
      (by decide) (by decide) (by decide)⟩

/-- C10: no output of the formatter contains colon-space, close-paren-space,
or the literal token; the substitution order cannot re-introduce them. -/
theorem C10_output_contains_no_pattern :
    ∀ s : List Char,
      containsSub colonPat (clean_answer s) = false ∧
      containsSub parenPat (clean_answer s) = false ∧
      containsSub quoteTok (clean_answer s) = false :=
  fun s => ⟨clean_no_colon s, clean_no_paren s, clean_no_tok s⟩

/-! ### Counting colon-newline-tab occurrences -/

theorem countSub_cons (p : List Char) (c : Char) (cs : List Char) :
    countSub p (c :: cs) = (if leadsWith p (c :: cs) then 1 else 0) + countSub p cs := rfl

theorem nt_leadsWith_replace_colon :
    ∀ cs : List Char,
      leadsWith ['\n', '\t'] (replaceL colonPat colonRep cs) = leadsWith ['\n', '\t'] cs := by
  intro cs
  cases cs with
  | nil => rfl
  | cons c cs' =>
    rw [replaceL_cons]
    by_cases hc : ((!colonPat.isEmpty) && leadsWith colonPat (c :: cs')) = true
    · rw [if_pos hc]
      have hcc : c = ':' := by
        rw [Bool.and_eq_true] at hc
        have h2 := hc.2
        rw [show colonPat = ':' :: [' '] from rfl, leadsWith_cons, Bool.and_eq_true,
            beq_iff_eq] at h2
        exact h2.1.symm
      subst hcc
      rw [show (colonRep ++ replaceL colonPat colonRep (cs'.drop (colonPat.length - 1))) =
            ':' :: '\n' :: '\t' :: replaceL colonPat colonRep (cs'.drop (colonPat.length - 1))
          from rfl,
          leadsWith_cons_of_ne (show '\n' ≠ ':' by decide),
          leadsWith_cons_of_ne (show '\n' ≠ ':' by decide)]
    · rw [if_neg hc]
      by_cases hcn : c = '\n'
      · subst hcn
        rw [leadsWith_cons, leadsWith_cons]
        simp only [beq_self_eq_true, Bool.true_and]
        cases cs' with
        | nil => rfl
        | cons d ds =>
          rw [replaceL_cons]
          by_cases hd : ((!colonPat.isEmpty) && leadsWith colonPat (d :: ds)) = true
          · rw [if_pos hd]
            have hdc : d = ':' := by
              rw [Bool.and_eq_true] at hd
              have h2 := hd.2
              rw [show colonPat = ':' :: [' '] from rfl, leadsWith_cons, Bool.and_eq_true,
                  beq_iff_eq] at h2
              exact h2.1.symm
            subst hdc
            rw [show (colonRep ++ replaceL colonPat colonRep (ds.drop (colonPat.length - 1))) =
                  ':' :: '\n' :: '\t' :: replaceL colonPat colonRep (ds.drop (colonPat.length - 1))
                from rfl,
                leadsWith_cons_of_ne (show '\t' ≠ ':' by decide),
                leadsWith_cons_of_ne (show '\t' ≠ ':' by decide)]
          · rw [if_neg hd]
            rw [leadsWith_cons, leadsWith_cons, leadsWith_nil, leadsWith_nil]
      · have h' : '\n' ≠ c := fun h => hcn h.symm
        rw [leadsWith_cons_of_ne h', leadsWith_cons_of_ne h']

theorem count_colon_aux :
    ∀ n m, List.length m ≤ n →
      countSub colonRep (replaceL colonPat colonRep m) =
        countSub colonPat m + countSub colonRep m := by
  intro n
  induction n with
  | zero =>
    intro m h
    have : m = [] := List.length_eq_zero.mp (Nat.le_zero.mp h)
    subst this
    rfl
  | succ n ih =>
    intro m hm
    cases m with
    | nil => rfl
    | cons c cs =>
      have hcs : cs.length ≤ n := by simpa using hm
      rw [replaceL_cons]
      by_cases hc : ((!colonPat.isEmpty) && leadsWith colonPat (c :: cs)) = true
      · rw [if_pos hc]
        have hlwc : leadsWith colonPat (c :: cs) = true := by
          rw [Bool.and_eq_true] at hc; exact hc.2
        rw [show colonPat = ':' :: [' '] from rfl, leadsWith_cons, Bool.and_eq_true,
            beq_iff_eq] at hlwc
        obtain ⟨hc1, hc2⟩ := hlwc
        cases cs with
        | nil => exact absurd hc2 (by rw [leadsWith_cons_nil]; simp)
        | cons s0 cs2 =>
          have hs0 : s0 = ' ' := by
            rw [leadsWith_cons, Bool.and_eq_true, beq_iff_eq] at hc2
            exact hc2.1.symm
          subst hs0
          have hcc : c = ':' := hc1.symm
          subst hcc
          have ih2 := ih cs2 (by simp at hm; omega)
          show countSub colonRep (colonRep ++ replaceL colonPat colonRep ((' ' :: cs2).drop (colonPat.length - 1))) =
            countSub colonPat (':' :: ' ' :: cs2) + countSub colonRep (':' :: ' ' :: cs2)
          rw [show ((' ' :: cs2).drop (colonPat.length - 1)) = cs2 from rfl,
              show (colonRep ++ replaceL colonPat colonRep cs2) =
                ':' :: '\n' :: '\t' :: replaceL colonPat colonRep cs2 from rfl,
              show colonPat = [':', ' '] from rfl]
          rw [show countSub colonRep (':' :: '\n' :: '\t' :: replaceL [':', ' '] colonRep cs2) =
                (if leadsWith colonRep (':' :: '\n' :: '\t' :: replaceL [':', ' '] colonRep cs2) then 1 else 0) +
                ((if leadsWith colonRep ('\n' :: '\t' :: replaceL [':', ' '] colonRep cs2) then 1 else 0) +
                 ((if leadsWith colonRep ('\t' :: replaceL [':', ' '] colonRep cs2) then 1 else 0) +
                  countSub colonRep (replaceL [':', ' '] colonRep cs2))) from rfl]
          have e1 : leadsWith colonRep (':' :: '\n' :: '\t' :: replaceL [':', ' '] colonRep cs2) = true := by
            show ((':' : Char) == ':' &&
              (('\n' : Char) == '\n' && (('\t' : Char) == '\t' &&
                leadsWith [] (replaceL [':', ' '] colonRep cs2)))) = true
            rw [leadsWith_nil]; simp
          have e2 : leadsWith colonRep ('\n' :: '\t' :: replaceL [':', ' '] colonRep cs2) = false :=
            leadsWith_cons_of_ne (by decide) _ _
          have e3 : leadsWith colonRep ('\t' :: replaceL [':', ' '] colonRep cs2) = false :=
            leadsWith_cons_of_ne (by decide) _ _
          have e4 : leadsWith [':', ' '] (':' :: ' ' :: cs2) = true := by
            show ((':' : Char) == ':' && ((' ' : Char) == ' ' && leadsWith [] cs2)) = true
            rw [leadsWith_nil]; simp
          have e5 : leadsWith [':', ' '] (' ' :: cs2) = false :=
            leadsWith_cons_of_ne (by decide) _ _
          have e6 : leadsWith colonRep (':' :: ' ' :: cs2) = false := by
            show ((':' : Char) == ':' && leadsWith ['\n', '\t'] (' ' :: cs2)) = false
            rw [leadsWith_cons_of_ne (show '\n' ≠ ' ' by decide)]
            simp
          have e7 : leadsWith colonRep (' ' :: cs2) = false :=
            leadsWith_cons_of_ne (by decide) _ _
          rw [show colonPat = [':', ' '] from rfl] at ih2
          rw [countSub_cons, countSub_cons, countSub_cons, countSub_cons,
              e1, e2, e3, e4, e5, e6, e7, ih2]
          simp
          try omega
      · rw [if_neg hc]
        have he : (!colonPat.isEmpty) = true := rfl
        have hlwc : leadsWith colonPat (c :: cs) = false := by
          revert hc; simp [he]
        have ihcs := ih cs hcs
        have hkey : leadsWith colonRep (c :: replaceL colonPat colonRep cs) =
            leadsWith colonRep (c :: cs) := by
          by_cases hcc : c = ':'
          · subst hcc
            show ((':' : Char) == ':' && leadsWith ['\n', '\t'] (replaceL colonPat colonRep cs)) =
              ((':' : Char) == ':' && leadsWith ['\n', '\t'] cs)
            rw [nt_leadsWith_replace_colon]
          · have h' : ':' ≠ c := fun h => hcc h.symm
            rw [show colonRep = ':' :: ['\n', '\t'] from rfl,
                leadsWith_cons_of_ne h', leadsWith_cons_of_ne h']
        rw [countSub_cons, countSub_cons, countSub_cons, hkey, hlwc, ihcs]
        by_cases hb : leadsWith colonRep (c :: cs) = true
        · rw [hb]
          simp
          try omega
        · rw [Bool.eq_false_iff.mpr hb]
          simp
          try omega

/-- C5 (counterexample to the claim as stated): at the input a-colon-space
the final strip removes the newline-tab that the colon-space substitution
introduced at the end of the string, so the formatter output contains zero
colon-newline-tab occurrences while the pre-substitution string contains one
colon-space occurrence. -/
theorem C5_counterexample_final_strip :
    countSub colonRep (clean_answer ['a', ':', ' ']) ≠
      countSub colonPat (specStep1 ['a', ':', ' ']) := by decide

/-- C5 (amended): measured immediately after the colon-space substitution,
the number of colon-newline-tab occurrences equals the number of colon-space
occurrences in the pre-substitution string plus the number of
colon-newline-tab occurrences already present there. -/
theorem C5_count_after_colon_substitution :
    ∀ s : List Char,
      countSub colonRep (specStep2 (specStep1 s)) =
        countSub colonPat (specStep1 s) + countSub colonRep (specStep1 s) :=
  fun s => count_colon_aux (specStep1 s).length (specStep1 s) (Nat.le_refl _)

/-! ### Presence of an unrelated pattern is preserved by the substitutions -/

theorem containsSub_append_elim_left {q : List Char} :
    ∀ {xs d : List Char}, (∀ x ∈ xs, q.head? ≠ some x) →
      containsSub q (xs ++ d) = true → containsSub q d = true := by
  intro xs
  induction xs with
  | nil => intro d _ h; simpa using h
  | cons a xs' ih =>
    intro d hx h
    rw [List.cons_append, containsSub_cons, Bool.or_eq_true] at h
    rcases h with h | h
    · cases q with
      | nil => exact containsSub_nil_pat d
      | cons q0 qt =>
        rw [leadsWith_cons, Bool.and_eq_true, beq_iff_eq] at h
        exact absurd (congrArg some h.1) (hx a (List.mem_cons_self a xs'))
    · exact ih (fun x hmem => hx x (List.mem_cons_of_mem a hmem)) h

theorem presence_replace_aux (p r q : List Char) (hdisj : ∀ x ∈ q, x ∉ p) :
    ∀ n l, l.length ≤ n → containsSub q l = true →
      containsSub q (replaceL p r l) = true := by
  intro n
  induction n with
  | zero =>
    intro l hlen h
    have : l = [] := List.length_eq_zero.mp (Nat.le_zero.mp hlen)
    subst this
    cases q with
    | nil => exact containsSub_nil_pat _
    | cons q0 qt => simp [containsSub] at h
  | succ n ih =>
    intro l hl h
    cases l with
    | nil =>
      cases q with
      | nil => exact containsSub_nil_pat _
      | cons q0 qt => simp [containsSub] at h
    | cons c cs =>
      have hcs : cs.length ≤ n := by simpa using hl
      rw [replaceL_cons]
      by_cases hc : ((!p.isEmpty) && leadsWith p (c :: cs)) = true
      · rw [if_pos hc]
        have hlwp : leadsWith p (c :: cs) = true := by
          rw [Bool.and_eq_true] at hc; exact hc.2
        have hdec := eq_append_drop_of_leadsWith p (c :: cs) hlwp
        rw [hdec] at h
        cases q with
        | nil => exact containsSub_nil_pat _
        | cons q0 qt =>
          have hq0 : ∀ x ∈ p, (q0 :: qt).head? ≠ some x := by
            intro x hxp hne
            have : q0 = x := Option.some.inj hne
            exact hdisj q0 (List.mem_cons_self q0 qt) (this ▸ hxp)
          have hd2 := containsSub_append_elim_left hq0 h
          have hp1 : 1 ≤ p.length := by
            cases p with
            | nil => simp at hc
            | cons ph pt => simp
          have hlen2 : ((c :: cs).drop p.length).length ≤ n := by
            rw [List.length_drop, List.length_cons]
            omega
          have hrec := ih _ hlen2 hd2
          have heq : (c :: cs).drop p.length = cs.drop (p.length - 1) := by
            cases p with
            | nil => simp at hc
            | cons ph pt => rfl
          rw [heq] at hrec
          exact containsSub_append_right r hrec
      · rw [if_neg hc]
        rw [containsSub_cons, Bool.or_eq_true] at h
        rcases h with hlw | htl
        · cases q with
          | nil => exact containsSub_nil_pat _
          | cons q0 qt =>
            rw [leadsWith_cons, Bool.and_eq_true, beq_iff_eq] at hlw
            obtain ⟨hq0c, hlw2⟩ := hlw
            have hdec := eq_append_drop_of_leadsWith qt cs hlw2
            rw [hdec]
            rw [replaceL_append_of_head_notMem r (List.drop qt.length cs) (by
              intro x hxqt hne
              cases p with
              | nil => simp at hne
              | cons ph pt =>
                have : ph = x := Option.some.inj hne
                exact hdisj x (List.mem_cons_of_mem q0 hxqt) (this ▸ List.mem_cons_self ph pt))]
            apply containsSub_of_leadsWith
            rw [leadsWith_cons, beq_iff_eq.mpr hq0c, leadsWith_append_self]
            rfl
        · exact containsSub_of_tail (ih cs hcs htl)

/-! ### Presence of a nonempty non-whitespace pattern survives the strip -/

theorem no_presence_in_space {q0 : Char} {qt : List Char} (hq : pySpace q0 = false) :
    ∀ {u : List Char}, (∀ x ∈ u, pySpace x = true) →
      containsSub (q0 :: qt) u = false := by
  intro u
  induction u with
  | nil => intro _; rfl
  | cons x u' ih =>
    intro hu
    rw [containsSub_cons, ih (fun y hy => hu y (List.mem_cons_of_mem x hy)), Bool.or_false]
    have hx : q0 ≠ x := by
      intro he
      rw [he] at hq
      rw [hu x (List.mem_cons_self x u')] at hq
      exact Bool.false_ne_true hq.symm
    exact leadsWith_cons_of_ne hx _ _

theorem leadsWith_space_suffix :
    ∀ (q : List Char), (∀ x ∈ q, pySpace x = false) →
    ∀ (t u : List Char), (∀ x ∈ u, pySpace x = true) →
      leadsWith q (t ++ u) = true → leadsWith q t = true := by
  intro q
  induction q with
  | nil => intro _ t u _ _; exact leadsWith_nil t
  | cons a q' ih =>
    intro hq t u hu h
    cases t with
    | nil =>
      exfalso
      rw [List.nil_append] at h
      cases u with
      | nil => exact Bool.false_ne_true ((leadsWith_cons_nil a q').symm.trans h)
      | cons x u' =>
        rw [leadsWith_cons, Bool.and_eq_true, beq_iff_eq] at h
        have h1 : pySpace a = false := hq a (List.mem_cons_self a q')
        have h2 : pySpace x = true := hu x (List.mem_cons_self x u')
        rw [h.1, h2] at h1
        exact Bool.false_ne_true h1.symm
    | cons c t' =>
      rw [List.cons_append, leadsWith_cons, Bool.and_eq_true] at h
      rw [leadsWith_cons, h.1,
          ih (fun y hy => hq y (List.mem_cons_of_mem a hy)) t' u hu h.2]
      rfl

theorem containsSub_space_suffix {q0 : Char} {qt : List Char}
    (hq : ∀ x ∈ q0 :: qt, pySpace x = false) :
    ∀ (t u : List Char), (∀ x ∈ u, pySpace x = true) →
      containsSub (q0 :: qt) (t ++ u) = true → containsSub (q0 :: qt) t = true := by
  intro t
  induction t with
  | nil =>
    intro u hu h
    rw [List.nil_append] at h
    rw [no_presence_in_space (hq q0 (List.mem_cons_self q0 qt)) hu] at h
    exact absurd h (by simp)
  | cons c t' ih =>
    intro u hu h
    rw [List.cons_append, containsSub_cons, Bool.or_eq_true] at h
    rcases h with h | h
    · exact containsSub_of_leadsWith
        (leadsWith_space_suffix (q0 :: qt) hq (c :: t') u hu h)
    · exact containsSub_of_tail (ih u hu h)

theorem presence_stripLeft {q0 : Char} {qt : List Char}
    (hq : ∀ x ∈ q0 :: qt, pySpace x = false) :
    ∀ {l : List Char}, containsSub (q0 :: qt) l = true →
      containsSub (q0 :: qt) (stripLeft l) = true := by
  intro l
  induction l with
  | nil => intro h; simpa using h
  | cons c cs ih =>
    intro h
    show containsSub (q0 :: qt) ((c :: cs).dropWhile pySpace) = true
    rw [List.dropWhile_cons]
    by_cases hf : pySpace c = true
    · rw [if_pos hf]
      rw [containsSub_cons, Bool.or_eq_true] at h
      rcases h with h | h
      · exfalso
        rw [leadsWith_cons, Bool.and_eq_true, beq_iff_eq] at h
        have h1 := hq q0 (List.mem_cons_self q0 qt)
        rw [h.1, hf] at h1
        exact Bool.false_ne_true h1.symm
      · exact ih h
    · rw [if_neg hf]
      exact h

theorem presence_stripRight {q0 : Char} {qt : List Char}
    (hq : ∀ x ∈ q0 :: qt, pySpace x = false) {l : List Char}
    (h : containsSub (q0 :: qt) l = true) :
    containsSub (q0 :: qt) (stripRight l) = true := by
  obtain ⟨u, hu, hsp⟩ := stripRight_append l
  rw [hu] at h
  exact containsSub_space_suffix hq (stripRight l) u hsp h

theorem presence_pyStrip {q0 : Char} {qt : List Char}
    (hq : ∀ x ∈ q0 :: qt, pySpace x = false) {l : List Char}
    (h : containsSub (q0 :: qt) l = true) :
    containsSub (q0 :: qt) (pyStrip l) = true :=
  presence_stripRight hq (presence_stripLeft hq h)

/-! ### Scenario: an input containing don-token-t yields an output
containing don-apostrophe-t -/

/-- The fragment d-o-n followed by the literal token followed by t
(scenario 3 of the spec). -/
def dqtTok : List Char := 'd' :: 'o' :: 'n' :: (quoteTok ++ ['t'])

/-- The fragment d-o-n-apostrophe-t expected in the formatted output. -/
def dontStr : List Char := ['d', 'o', 'n', '\'', 't']

theorem replace_dqt_block (t : List Char) :
    replaceL quoteTok quoteRep (('o' :: 'n' :: (quoteTok ++ ['t'])) ++ t) =
      'o' :: 'n' :: '\'' :: 't' :: replaceL quoteTok quoteRep t := by
  rw [show (('o' :: 'n' :: (quoteTok ++ ['t'])) ++ t) =
        'o' :: 'n' :: (quoteTok ++ ('t' :: t)) from rfl]
  have hmid : replaceL quoteTok quoteRep (quoteTok ++ ('t' :: t)) =
      '\'' :: 't' :: replaceL quoteTok quoteRep t := by
    rw [show quoteTok ++ ('t' :: t) = '/' :: (quoteTok.tail ++ ('t' :: t)) from rfl,
        replaceL_cons]
    have hyes : ((!quoteTok.isEmpty) &&
        leadsWith quoteTok ('/' :: (quoteTok.tail ++ ('t' :: t)))) = true := by
      have hl : leadsWith quoteTok ('/' :: (quoteTok.tail ++ ('t' :: t))) = true :=
        leadsWith_append_self quoteTok ('t' :: t)
      rw [hl]
      rfl
    rw [if_pos hyes,
        show ((quoteTok.tail ++ ('t' :: t)).drop (quoteTok.length - 1)) = 't' :: t from by
          rw [show quoteTok.length - 1 = quoteTok.tail.length from rfl]
          exact List.drop_left _ _,
        replaceL_cons]
    have hno : leadsWith quoteTok ('t' :: t) = false := leadsWith_cons_of_ne (by decide) _ _
    rw [hno, Bool.and_false, if_neg (by simp)]
    rfl
  rw [replaceL_cons]
  have hno1 : leadsWith quoteTok ('o' :: ('n' :: (quoteTok ++ ('t' :: t)))) = false :=
    leadsWith_cons_of_ne (by decide) _ _
  rw [hno1, Bool.and_false, if_neg (by simp), replaceL_cons]
  have hno2 : leadsWith quoteTok ('n' :: (quoteTok ++ ('t' :: t))) = false :=
    leadsWith_cons_of_ne (by decide) _ _
  rw [hno2, Bool.and_false, if_neg (by simp), hmid]

theorem dqt_gives_dont_aux :
    ∀ n l, l.length ≤ n → containsSub dqtTok l = true →
      containsSub dontStr (replaceL quoteTok quoteRep l) = true := by
  intro n
  induction n with
  | zero =>
    intro l hlen h
    have : l = [] := List.length_eq_zero.mp (Nat.le_zero.mp hlen)
    subst this
    exact absurd h (by decide)
  | succ n ih =>
    intro l hl h
    cases l with
    | nil => exact absurd h (by decide)
    | cons c cs =>
      have hcs : cs.length ≤ n := by simpa using hl
      rw [replaceL_cons]
      by_cases hc : ((!quoteTok.isEmpty) && leadsWith quoteTok (c :: cs)) = true
      · rw [if_pos hc]
        have hlwp : leadsWith quoteTok (c :: cs) = true := by
          rw [Bool.and_eq_true] at hc; exact hc.2
        have hdec := eq_append_drop_of_leadsWith quoteTok (c :: cs) hlwp
        rw [hdec] at h
        have hd2 := containsSub_append_elim_left (q := dqtTok) (by decide) h
        have hlen2 : ((c :: cs).drop quoteTok.length).length ≤ n := by
          rw [List.length_drop, List.length_cons]
          have : 1 ≤ quoteTok.length := by decide
          omega
        have hrec := ih _ hlen2 hd2
        exact containsSub_append_right quoteRep hrec
      · rw [if_neg hc]
        rw [containsSub_cons, Bool.or_eq_true] at h
        rcases h with hlw | htl
        · rw [show dqtTok = 'd' :: ('o' :: 'n' :: (quoteTok ++ ['t'])) from rfl,
              leadsWith_cons, Bool.and_eq_true, beq_iff_eq] at hlw
          obtain ⟨hc1, hlw2⟩ := hlw
          subst hc1
          rw [eq_append_drop_of_leadsWith _ cs hlw2, replace_dqt_block]
          exact containsSub_of_leadsWith (leadsWith_append_self dontStr _)
        · exact containsSub_of_tail (ih cs hcs htl)

/-- C4: on any input containing the literal token, the formatter leaves no
occurrence of the token in its output, and in particular an input containing
the fragment d-o-n-token-t yields an output containing d-o-n-apostrophe-t. -/
theorem C4_token_fully_replaced (s : List Char)
    (h : containsSub quoteTok s = true) :
    containsSub quoteTok (clean_answer s) = false ∧
    (containsSub dqtTok s = true → containsSub dontStr (clean_answer s) = true) := by
  refine ⟨clean_no_tok s, fun hd => ?_⟩
  have h1 : containsSub dontStr (replaceL quoteTok quoteRep s) = true :=
    dqt_gives_dont_aux s.length s (Nat.le_refl _) hd
  have h2 : containsSub dontStr (replaceL colonPat colonRep
      (replaceL quoteTok quoteRep s)) = true :=
    presence_replace_aux colonPat colonRep dontStr (by decide) _ _ (Nat.le_refl _) h1
  have h3 : containsSub dontStr (replaceL parenPat parenRep (replaceL colonPat colonRep
      (replaceL quoteTok quoteRep s))) = true :=
    presence_replace_aux parenPat parenRep dontStr (by decide) _ _ (Nat.le_refl _) h2
  exact @presence_pyStrip 'd' ['o', 'n', '\'', 't'] (by decide) _ h3

/-- Witness for C4 at the concrete input d-o-n-token-t. -/
theorem C4_witness :
    containsSub quoteTok dqtTok = true ∧
    containsSub quoteTok (clean_answer dqtTok) = false ∧
    containsSub dqtTok dqtTok = true ∧
    containsSub dontStr (clean_answer dqtTok) = true :=
  ⟨by decide, (C4_token_fully_replaced dqtTok (by decide)).1, by decide,
    (C4_token_fully_replaced dqtTok (by decide)).2 (by decide)⟩

/-! ### The query handling flow of the script -/

/-- The structured result returned by the pipeline invocation, modelled as a
dictionary: a list of key-value pairs of strings. -/
structure PipelineResult where
  entries : List (List Char × List Char)

/-- Python dictionary lookup `d[key]`: the first entry with the given key,
`none` when the key is absent (which in Python raises `KeyError`). -/
def lookupEntry (key : List Char) : List (List Char × List Char) → Option (List Char)
  | [] => none
  | (k, v) :: rest => if k = key then some v else lookupEntry key rest

/-- The fixed key under which the query is passed (src/app.py line 22). -/
def queryKey : List Char := ['q', 'u', 'e', 'r', 'y']

/-- The fixed field extracted from the response (src/app.py line 23). -/
def resultKey : List Char := ['r', 'e', 's', 'u', 'l', 't']

/-- The failures a query can surface: the pipeline invocation raising, or
the returned structure lacking the result field. -/
inductive ScriptError where
  | invokeRaised (msg : List Char) : ScriptError
  | missingResult : ScriptError
deriving DecidableEq

/-- What one interaction of the script produces for the user. -/
inductive QueryOutcome where
  | idle : QueryOutcome
  | answered (text : List Char) : QueryOutcome
  | failed (e : ScriptError) : QueryOutcome
deriving DecidableEq

/-- One interaction of src/app.py lines 17-34: read the query, and when it
is truthy (a nonempty string) invoke the chain with the dictionary
containing the query under the fixed key, extract the result field, format
it and render it.  The first component records the list of invocation
arguments (one entry per call made); failures propagate as `failed`. -/
def runQuery (invoke : List (List Char × List Char) → Except (List Char) PipelineResult)
    (query : List Char) : List (List (List Char × List Char)) × QueryOutcome :=
  if query = [] then ([], QueryOutcome.idle)
  else
    match invoke [(queryKey, query)] with
    | Except.error e =>
      ([[(queryKey, query)]], QueryOutcome.failed (ScriptError.invokeRaised e))
    | Except.ok resp =>
      match lookupEntry resultKey resp.entries with
      | none => ([[(queryKey, query)]], QueryOutcome.failed ScriptError.missingResult)
      | some answer => ([[(queryKey, query)]], QueryOutcome.answered (clean_answer answer))

theorem runQuery_error {invoke : List (List Char × List Char) → Except (List Char) PipelineResult}
    {q e : List Char} (hq : q ≠ []) (hinv : invoke [(queryKey, q)] = Except.error e) :
    runQuery invoke q =
      ([[(queryKey, q)]], QueryOutcome.failed (ScriptError.invokeRaised e)) := by
  unfold runQuery
  rw [if_neg hq]
  simp only [hinv]

theorem runQuery_missing {invoke : List (List Char × List Char) → Except (List Char) PipelineResult}
    {q : List Char} {resp : PipelineResult} (hq : q ≠ [])
    (hinv : invoke [(queryKey, q)] = Except.ok resp)
    (hlook : lookupEntry resultKey resp.entries = none) :
    runQuery invoke q = ([[(queryKey, q)]], QueryOutcome.failed ScriptError.missingResult) := by
  unfold runQuery
  rw [if_neg hq]
  simp only [hinv, hlook]

theorem runQuery_answered {invoke : List (List Char × List Char) → Except (List Char) PipelineResult}
    {q : List Char} {resp : PipelineResult} {answer : List Char} (hq : q ≠ [])
    (hinv : invoke [(queryKey, q)] = Except.ok resp)
    (hlook : lookupEntry resultKey resp.entries = some answer) :
    runQuery invoke q = ([[(queryKey, q)]], QueryOutcome.answered (clean_answer answer)) := by
  unfold runQuery
  rw [if_neg hq]
  simp only [hinv, hlook]

theorem runQuery_calls {invoke : List (List Char × List Char) → Except (List Char) PipelineResult}
    {q : List Char} (hq : q ≠ []) :
    (runQuery invoke q).1 = [[(queryKey, q)]] := by
  rcases hinv : invoke [(queryKey, q)] with e | resp
  · rw [runQuery_error hq hinv]
  · rcases hlook : lookupEntry resultKey resp.entries with _ | answer
    · rw [runQuery_missing hq hinv hlook]
    · rw [runQuery_answered hq hinv hlook]

/-! ### The memoized artifact loader -/

/-- Modelled from the spec: the process-wide cache that backs the resource
decorator on the loader (the decorator implementation is external to the
repository).  `cached` is the memoized artifact, `loads` counts how many
times the underlying deserialization ran. -/
structure CacheState (α : Type) where
  cached : Option α
  loads : Nat

/-- Modelled from the spec: `load_qa_chain` of src/app.py lines 9-14 under
its resource-cache decorator.  On the first invocation the deserializer
(the pickle load of the artifact file) runs and the result is cached; on
every later invocation within the same process the previously loaded
instance is returned without re-reading storage. -/
def load_qa_chain {α : Type} (deserialize : Unit → α) (s : CacheState α) : α × CacheState α :=
  match s.cached with
  | some p => (p, s)
  | none =>
    let p := deserialize ()
    (p, { cached := some p, loads := s.loads + 1 })

/-- The cache state after a number of loader calls, starting from the empty
cache at process start. -/
def loadTrace {α : Type} (deserialize : Unit → α) : Nat → CacheState α
  | 0 => { cached := none, loads := 0 }
  | n + 1 => (load_qa_chain deserialize (loadTrace deserialize n)).2

theorem loadTrace_succ {α : Type} (d : Unit → α) :
    ∀ n, loadTrace d (n + 1) = { cached := some (d ()), loads := 1 } := by
  intro n
  induction n with
  | zero => rfl
  | succ n ih =>
    show (load_qa_chain d (loadTrace d (n + 1))).2 = _
    rw [ih]
    rfl

/-! ### Claims about the interaction flow -/

/-- C6: the artifact is deserialized at most once per process lifetime:
after any positive number of loader calls exactly one deserialization has
run, and every further call returns that same first-loaded instance and
leaves the cache untouched. -/
theorem C6_artifact_loaded_once :
    ∀ (α : Type) (deserialize : Unit → α) (n : Nat),
      (loadTrace deserialize (n + 1)).loads = 1 ∧
      load_qa_chain deserialize (loadTrace deserialize (n + 1)) =
        (deserialize (), loadTrace deserialize (n + 1)) := by
  intro α d n
  rw [loadTrace_succ]
  exact ⟨rfl, rfl⟩

/-- C7: for a nonempty query the handler makes exactly one invocation,
passing the query under the fixed key, and when the invocation returns a
structure carrying the result field the displayed answer is the formatter
applied to that field. -/
theorem C7_query_contract :
    ∀ (invoke : List (List Char × List Char) → Except (List Char) PipelineResult)
      (q : List Char), q ≠ [] →
      (runQuery invoke q).1 = [[(queryKey, q)]] ∧
      (∀ resp answer, invoke [(queryKey, q)] = Except.ok resp →
        lookupEntry resultKey resp.entries = some answer →
        (runQuery invoke q).2 = QueryOutcome.answered (clean_answer answer)) := by
  intro invoke q hq
  refine ⟨runQuery_calls hq, fun resp answer hinv hlook => ?_⟩
  rw [runQuery_answered hq hinv hlook]

/-- Witness for C7 at the query a with a pipeline answering hi. -/
theorem C7_witness :
    (['a'] : List Char) ≠ [] ∧
    (runQuery (fun _ => Except.ok ⟨[(resultKey, ['h', 'i'])]⟩) ['a']).1 =
      [[(queryKey, ['a'])]] ∧
    (runQuery (fun _ => Except.ok ⟨[(resultKey, ['h', 'i'])]⟩) ['a']).2 =
      QueryOutcome.answered (clean_answer ['h', 'i']) :=
  ⟨by decide,
   (C7_query_contract (fun _ => Except.ok ⟨[(resultKey, ['h', 'i'])]⟩) ['a'] (by decide)).1,
   (C7_query_contract (fun _ => Except.ok ⟨[(resultKey, ['h', 'i'])]⟩) ['a'] (by decide)).2
     ⟨[(resultKey, ['h', 'i'])]⟩ ['h', 'i'] rfl (by decide)⟩

/-- C8: an empty query makes no invocation, renders nothing, and is not an
error: the handler stays idle. -/
theorem C8_empty_query_idle :
    ∀ invoke : List (List Char × List Char) → Except (List Char) PipelineResult,
      runQuery invoke [] = ([], QueryOutcome.idle) :=
  fun _ => rfl

/-- C9: when the invocation raises, the error propagates unchanged as the
outcome of the single call and no answer is rendered; when the returned
structure lacks the result field, the handler fails with the missing-field
error, again after exactly one call and with no answer rendered. -/
theorem C9_failures_propagate :
    ∀ (invoke : List (List Char × List Char) → Except (List Char) PipelineResult)
      (q : List Char), q ≠ [] →
      (∀ e, invoke [(queryKey, q)] = Except.error e →
        runQuery invoke q =
          ([[(queryKey, q)]], QueryOutcome.failed (ScriptError.invokeRaised e))) ∧
      (∀ resp, invoke [(queryKey, q)] = Except.ok resp →
        lookupEntry resultKey resp.entries = none →
        runQuery invoke q =
          ([[(queryKey, q)]], QueryOutcome.failed ScriptError.missingResult)) := by
  intro invoke q hq
  exact ⟨fun e hinv => runQuery_error hq hinv,
         fun resp hinv hlook => runQuery_missing hq hinv hlook⟩

/-- Witness for C9 at the query a, once with a raising pipeline and once
with a pipeline whose response lacks the result field. -/
theorem C9_witness :
    (['a'] : List Char) ≠ [] ∧
    runQuery (fun _ => Except.error ['b', 'o', 'o', 'm']) ['a'] =
      ([[(queryKey, ['a'])]], QueryOutcome.failed (ScriptError.invokeRaised ['b', 'o', 'o', 'm'])) ∧
    runQuery (fun _ => Except.ok ⟨[]⟩) ['a'] =
      ([[(queryKey, ['a'])]], QueryOutcome.failed ScriptError.missingResult) :=
  ⟨by decide,
   (C9_failures_propagate (fun _ => Except.error ['b', 'o', 'o', 'm']) ['a'] (by decide)).1
     ['b', 'o', 'o', 'm'] rfl,
   (C9_failures_propagate (fun _ => Except.ok ⟨[]⟩) ['a'] (by decide)).2 ⟨[]⟩ rfl rfl⟩
